import Mathlib

/-!
Verification development for a repository with two small HTTP services:
a Google Custom Search adapter (google_search.py) and a webpage-to-Markdown
content extractor (link_view.py).  The Python code is shallowly embedded:
pure fragments become Lean functions, external collaborators (the search
API, requests, trafilatura, markdownify, the HTML serializer) become
explicit oracle parameters, Python dictionaries become insertion-ordered
association lists, and Python exceptions become Except values.
-/

/-! ### Python dictionaries (insertion ordered, last write wins) -/

/-- A Python dict with string keys, modelled as an insertion-ordered
association list with unique keys. -/
abbrev PyDict (β : Type) := List (String × β)

/-- Membership test for a key, as Python's `in`. -/
def hasKey (m : PyDict β) (k : String) : Bool :=
  m.any (fun p => p.1 == k)

/-- Python `d[k] = v`: overwrite in place if the key exists, else append. -/
def pyInsert (m : PyDict β) (k : String) (v : β) : PyDict β :=
  if hasKey m k then m.map (fun p => if p.1 == k then (k, v) else p)
  else m ++ [(k, v)]

/-- Python `d.get(k)`: the value stored at `k`, if any. -/
def pyGet (m : PyDict β) (k : String) : Option β :=
  (m.find? (fun p => p.1 == k)).map (fun p => p.2)

/-- A loop `for x in l: if f x = some (k, v): d[k] = v` over an initially
empty dict, as used both for meta-tag collection and for batch analysis. -/
def pyFold (f : α → Option (String × β)) (l : List α) : PyDict β :=
  l.foldl (fun m x => match f x with
    | some p => pyInsert m p.1 p.2
    | none => m) []

/-- One dict assignment `d[p.1] = p.2`. -/
def dictStep (m : PyDict β) (p : String × β) : PyDict β := pyInsert m p.1 p.2

/-- The value of the last pair of the list that carries the given key. -/
def lastContent (k : String) : List (String × β) → Option β
  | [] => none
  | (q, v) :: rest =>
    match lastContent k rest with
    | some w => some w
    | none => if q == k then some v else none

/-! ### google_search.py: the search adapter -/

/-- One entry of a `metatags` array inside a result item's pagemap. -/
abbrev MetaDict := PyDict String

/-- The `pagemap` JSON object of one search item; only the `metatags` key is
ever read by the code, so only it is given structure. -/
structure PageMap where
  metatags : Option (List MetaDict)
deriving Repr, DecidableEq

/-- One item of the upstream response's `items` array, with the keys the
code reads; an absent key is `none`. -/
structure Item where
  title : Option String
  link : Option String
  snippet : Option String
  pagemap : Option PageMap
deriving Repr, DecidableEq

/-- A formatted search result as built in `perform_search`. -/
structure SearchResult where
  title : String
  link : String
  snippet : String
  pagemap : PageMap
  datePublished : String
  source : String
deriving Repr, DecidableEq

/-- The parameter dictionary sent to the upstream API
(`search_params` in `perform_search`); an optional filter left out of the
dictionary is `none`. -/
structure SearchParams where
  q : String
  cx : String
  num : Int
  dateRestrict : Option String
  lr : Option String
  cr : Option String
  safe : Option String
deriving Repr, DecidableEq

/-- Python truthiness of an optional string (`None` and `''` are falsy). -/
def pyTruthy (o : Option String) : Bool := !(o.getD "" == "")

/-- Lines 62-76 of google_search.py: build `search_params`, capping the
requested count at 10 and adding each optional filter only when truthy. -/
def buildParams (query cseId : String) (numResults : Int)
    (dateRestrict language country safeSearch : Option String) : SearchParams :=
  { q := query
    cx := cseId
    num := min numResults 10
    dateRestrict := if pyTruthy dateRestrict then dateRestrict else none
    lr := if pyTruthy language then some ("lang_" ++ language.getD "") else none
    cr := if pyTruthy country then some ("country" ++ (country.getD "").toUpper) else none
    safe := if pyTruthy safeSearch then safeSearch else none }

/-- The behaviour of `self.search_service.cse().list(**params).execute()`:
it may raise, return a JSON object without an `items` key, or return an
`items` array. -/
inductive UpstreamResult where
  | raises
  | returns (items : Option (List Item))

/-- Line 89: `item.get('pagemap', {}).get('metatags', [{}])[0]
.get('article:published_time', '')`.  Result `none` models the IndexError
raised when `metatags` is present but an empty array. -/
def datePublishedOf (item : Item) : Option String :=
  let mts : List MetaDict :=
    match item.pagemap with
    | none => [[]]
    | some pm => pm.metatags.getD [[]]
  match mts with
  | [] => none
  | d :: _ => some ((pyGet d "article:published_time").getD "")

/-- Lines 84-91: format one item; `none` models an exception escaping the
per-item dictionary construction. -/
def formatItem (item : Item) : Option SearchResult :=
  (datePublishedOf item).map (fun dp =>
    { title := item.title.getD ""
      link := item.link.getD ""
      snippet := item.snippet.getD ""
      pagemap := item.pagemap.getD ⟨none⟩
      datePublished := dp
      source := "google_search" })

/-- The `for item in result['items']` loop; a failure on any item aborts the
whole loop (the partial `formatted_results` list is discarded by the
surrounding handler). -/
def formatAll : List Item → Option (List SearchResult)
  | [] => some []
  | item :: rest =>
    match formatItem item, formatAll rest with
    | some r, some rs => some (r :: rs)
    | _, _ => none

/-- `MCPServer.perform_search` (lines 44-97).  `ready` is the state of
`self.search_service`; `upstream` gives the behaviour of the external API on
the parameters actually sent.  Raising is `Except.error`; the `except`
clause at line 95 turns every query-time failure into an empty list. -/
def perform_search (ready : Bool) (upstream : SearchParams → UpstreamResult)
    (cseId query : String) (numResults : Int)
    (dateRestrict language country safeSearch : Option String) :
    Except String (List SearchResult) :=
  if ready = false then .error "Google Search API not initialized"
  else
    match upstream (buildParams query cseId numResults dateRestrict language country safeSearch) with
    | .raises => .ok []
    | .returns none => .ok []
    | .returns (some items) => .ok ((formatAll items).getD [])

/-- Number of items carried by an upstream response. -/
def numItems : UpstreamResult → Nat
  | .raises => 0
  | .returns none => 0
  | .returns (some items) => items.length

/-! ### Fixtures for the search-adapter claims and witnesses -/

/-- A minimal response item (all keys absent). -/
def emptyItem : Item := ⟨none, none, none, none⟩

/-- The result `perform_search` formats from `emptyItem`. -/
def emptySearchResult : SearchResult :=
  { title := "", link := "", snippet := "", pagemap := ⟨none⟩
    datePublished := "", source := "google_search" }

/-- An upstream API that ignores the requested count and returns 11 items. -/
def upstream11 : SearchParams → UpstreamResult :=
  fun _ => .returns (some (List.replicate 11 emptyItem))

/-- An upstream API that returns 2 items for any request. -/
def upstream2 : SearchParams → UpstreamResult :=
  fun _ => .returns (some [emptyItem, emptyItem])

/-- An item whose pagemap carries an empty `metatags` array. -/
def badItem : Item := ⟨some "t", some "l", some "s", some ⟨some []⟩⟩

/-! ### link_view.py: whitespace model of Python regexes

`_clean_markdown` applies three `re.sub` passes and a `strip`.  Characters
are modelled as `List Char`; `isWs` models the regex class `\s` (ASCII
range), `isAlphanum` models `[A-Za-z0-9]`. -/

/-- The regex class `\s` over the ASCII range. -/
def isWs (c : Char) : Bool :=
  c.toNat == 32 || (9 ≤ c.toNat && c.toNat ≤ 13)

/-- Maximal whitespace prefix of a character list. -/
def wsRun (l : List Char) : List Char := l.takeWhile isWs

/-- Number of newline characters in a list. -/
def nlCount (l : List Char) : Nat := l.count '\n'

/-- Length of the prefix of `run` ending at its last newline.  For a greedy
leftmost match of the pattern newline-`\s*`-newline-`\s*`-newline starting at
the head of a whitespace run, this is exactly the match length. -/
def lastNLlen (run : List Char) : Nat :=
  run.length - (run.reverse.takeWhile (fun c => c != '\n')).length

/-- `re.sub` with the first pattern of `_clean_markdown` (three newlines
with interleaved whitespace) and replacement of two newlines: leftmost,
greedy, non-overlapping.  A match exists at a position exactly when the
character there is a newline and the maximal whitespace run from it holds at
least three newlines; the greedy match then extends to the run's last
newline. -/
def sub3NL (l : List Char) : List Char :=
  match l with
  | [] => []
  | c :: rest =>
    if c = '\n' ∧ 3 ≤ nlCount (wsRun (c :: rest)) then
      '\n' :: '\n' :: sub3NL (rest.drop (lastNLlen (wsRun (c :: rest)) - 1))
    else c :: sub3NL rest
termination_by l.length
decreasing_by
  · simp only [List.length_cons, List.length_drop]
    omega
  · simp

/-- `re.sub` with the second pattern (a run of spaces becomes one space). -/
def subSpaces (l : List Char) : List Char :=
  match l with
  | [] => []
  | c :: rest =>
    if c = ' ' then ' ' :: subSpaces (rest.dropWhile (fun d => d == ' '))
    else c :: subSpaces rest
termination_by l.length
decreasing_by
  · simp only [List.length_cons]
    have h : (rest.dropWhile (fun d => d == ' ')).length ≤ rest.length :=
      List.IsSuffix.length_le (List.dropWhile_suffix _)
    omega
  · simp

/-- `re.sub` with the third pattern (a `#` directly followed by an
alphanumeric character gains a space in between). -/
def subHash : List Char → List Char
  | [] => []
  | [c] => [c]
  | a :: b :: rest =>
    if a = '#' ∧ b.isAlphanum then '#' :: ' ' :: b :: subHash rest
    else a :: subHash (b :: rest)

/-- Python `str.strip()`: remove leading and trailing whitespace. -/
def pyStrip (l : List Char) : List Char :=
  ((l.dropWhile isWs).reverse.dropWhile isWs).reverse

/-- `LinkViewer._clean_markdown` (lines 28-36): the three substitutions in
order, then the strip. -/
def clean_markdown (l : List Char) : List Char :=
  pyStrip (subHash (subSpaces (sub3NL l)))

/-- Checker: does the list contain the pattern newline-`\s*`-newline-`\s*`-
newline, i.e. a run of more than one blank line? -/
def hasNL3 : List Char → Bool
  | [] => false
  | c :: rest =>
    (c == '\n' && decide (3 ≤ nlCount (wsRun (c :: rest)))) || hasNL3 rest

/-- Checker: does the list contain two adjacent space characters? -/
def hasDS : List Char → Bool
  | [] => false
  | [_] => false
  | a :: b :: rest => (a == ' ' && b == ' ') || hasDS (b :: rest)

/-! ### link_view.py: HTML document model

BeautifulSoup documents are forests of nodes; the external parser, the
trafilatura extractor, markdownify and the tag serializer are oracle
parameters of the embedding. -/

/-- The attributes of an HTML element that the code reads. -/
structure Attrs where
  name : Option String
  property : Option String
  content : Option String
deriving Repr, DecidableEq

/-- A parsed HTML node: an element with tag, attributes and children, or a
text node. -/
inductive HNode where
  | elem (tag : String) (attrs : Attrs) (children : List HNode)
  | text (s : String)

/-- A parsed document: its top-level nodes in order. -/
abbrev Soup := List HNode

/-- The tag name of a node, when it is an element. -/
def tagOf : HNode → Option String
  | .elem t _ _ => some t
  | .text _ => none

/-- The boilerplate selector of line 74. -/
def boilerTags : List String := ["script", "style", "nav", "footer", "header", "aside"]

/-- Lines 74-75: every element matching the boilerplate selector is
decomposed, removing it together with its whole subtree. -/
def removeBoilerList : Soup → Soup
  | [] => []
  | .text s :: rest => .text s :: removeBoilerList rest
  | .elem t a ch :: rest =>
    if t ∈ boilerTags then removeBoilerList rest
    else .elem t a (removeBoilerList ch) :: removeBoilerList rest

/-- `soup.find(name)`: the first element with the given tag in document
(depth-first) order. -/
def findTag (name : String) : Soup → Option HNode
  | [] => none
  | .text _ :: rest => findTag name rest
  | .elem t a ch :: rest =>
    if t = name then some (.elem t a ch)
    else
      match findTag name ch with
      | some n => some n
      | none => findTag name rest

/-- Does the forest contain an element with the given tag? -/
def containsTag (name : String) : Soup → Bool
  | [] => false
  | .text _ :: rest => containsTag name rest
  | .elem t _ ch :: rest => t == name || containsTag name ch || containsTag name rest

/-- All elements of a forest in document order. -/
def allElems : Soup → List HNode
  | [] => []
  | .text _ :: rest => allElems rest
  | .elem t a ch :: rest => .elem t a ch :: (allElems ch ++ allElems rest)

/-- Line 77: `soup.find('main') or soup.find('article') or soup.find('body')`.
A bs4 Tag is always truthy, so `or` selects the first non-None find. -/
def chooseFragment (soup : Soup) : Option HNode :=
  match findTag "main" soup with
  | some n => some n
  | none =>
    match findTag "article" soup with
    | some n => some n
    | none => findTag "body" soup

/-- `soup.find_all('meta')`: attribute sets of all meta elements in document
order. -/
def findAllMeta : Soup → List Attrs
  | [] => []
  | .text _ :: rest => findAllMeta rest
  | .elem t a ch :: rest =>
    if t = "meta" then a :: (findAllMeta ch ++ findAllMeta rest)
    else findAllMeta ch ++ findAllMeta rest

/-- Line 57: `tag.get('name', tag.get('property', ''))`. -/
def tagKey (a : Attrs) : String := a.name.getD (a.property.getD "")

/-- Line 58: `tag.get('content', '')`. -/
def tagContent (a : Attrs) : String := a.content.getD ""

/-- Lines 55-60: build the `meta_tags` dict, skipping falsy names and
contents; assignment into a Python dict is last write wins. -/
def collectMeta (tags : List Attrs) : PyDict String :=
  pyFold (fun a =>
    if tagKey a ≠ "" ∧ tagContent a ≠ "" then some (tagKey a, tagContent a)
    else none) tags

/-- `Tag.string`: the string of a tag with a single text child, recursing
through single element children; `none` models Python `None`. -/
def nodeString : HNode → Option String
  | .text s => some s
  | .elem _ _ [c] => nodeString c
  | .elem _ _ _ => none

/-- The components of `urlparse(url)` the code reads. -/
structure UrlParts where
  scheme : String
  netloc : String
deriving Repr, DecidableEq

/-- `LinkViewer.is_valid_url` (lines 20-26): `urlparse` raising is modelled
by `none`; otherwise both the scheme and the network location must be
nonempty (Python `all` on truthiness). -/
def is_valid_url (parts : Option UrlParts) : Bool :=
  match parts with
  | none => false
  | some p => !(p.scheme == "") && !(p.netloc == "")

/-- The two exception classes a caller of `extract_content` can observe:
`ValueError` from validation, generic `Exception` from processing. -/
inductive PyError where
  | valueError (msg : String)
  | exception (msg : String)
deriving Repr, DecidableEq

/-- `str(e)` on either exception class. -/
def errMsg : PyError → String
  | .valueError m => m
  | .exception m => m

/-- The external collaborators of `extract_content`: the HTTP fetch
(including `raise_for_status`), trafilatura (which may return `None`), and
markdownify; each may raise. -/
structure Oracle where
  fetch : Except String String
  traf : String → Except String (Option String)
  mdf : String → Except String (List Char)

/-- The dictionary returned by `extract_content` (lines 87-100), with the
nested stats and preview fields flattened. -/
structure ExtractedPage where
  url : String
  title : Option String
  description : String
  markdown_content : List Char
  meta_tags : PyDict String
  word_count : Nat
  approximate_chars : Nat
  first_500_chars : List Char
deriving Repr, DecidableEq

/-- The regex class `\w` over the ASCII range. -/
def isWordChar (c : Char) : Bool := c.isAlphanum || c == '_'

/-- Helper for `countWords`: scan, counting entries into word runs. -/
def countWordsAux : Bool → List Char → Nat
  | _, [] => 0
  | inWord, c :: rest =>
    if isWordChar c then (if inWord then 0 else 1) + countWordsAux true rest
    else countWordsAux false rest

/-- Line 84: `len(re.findall(r'\w+', text))`, the number of maximal
word-character runs. -/
def countWords (l : List Char) : Nat := countWordsAux false l

/-- Line 98: the 500-character preview, ellipsis-suffixed on truncation. -/
def previewOf (md : List Char) : List Char :=
  if 500 < md.length then md.take 500 ++ ['.', '.', '.'] else md

/-- `str(x)` for `x : Optional[Tag]`: Python renders `None` as the literal
string `"None"`; a tag is rendered by the external serializer. -/
def strFrag (ser : HNode → String) : Option HNode → String
  | none => "None"
  | some n => ser n

/-- Line 89: `soup.title.string if soup.title else ''`. -/
def titleOf (soup : Soup) : Option String :=
  match findTag "title" soup with
  | none => some ""
  | some t => nodeString t

/-- Lines 80-100: clean the markdown, compute the stats and assemble the
result (the title is read from the soup as it stands after any
decomposition). -/
def mkPage (url : String) (soupForTitle : Soup) (meta : PyDict String)
    (md0 : List Char) : ExtractedPage :=
  let md := clean_markdown md0
  { url := url
    title := titleOf soupForTitle
    description := (pyGet meta "description").getD ""
    markdown_content := md
    meta_tags := meta
    word_count := countWords md
    approximate_chars := md.length
    first_500_chars := previewOf md }

/-- `LinkViewer.extract_content` (lines 38-107).  `parts` is the outcome of
`urlparse(url)`, `o` holds the fallible external collaborators, `parse` is
the HTML parser and `ser` the serializer used by `str` on a tag.  The two
`except` clauses wrap any internal failure into a generic exception with the
corresponding message prefix. -/
def extract_content (url : String) (parts : Option UrlParts) (o : Oracle)
    (parse : String → Soup) (ser : HNode → String) : Except PyError ExtractedPage :=
  if is_valid_url parts = false then .error (.valueError "Invalid URL provided")
  else
    match o.fetch with
    | .error msg => .error (.exception ("Failed to fetch content: " ++ msg))
    | .ok body =>
      let soup := parse body
      let meta := collectMeta (findAllMeta soup)
      match o.traf body with
      | .error msg => .error (.exception ("Error processing content: " ++ msg))
      | .ok trafRes =>
        if (trafRes.getD "" == "") = false then
          match o.mdf (trafRes.getD "") with
          | .error msg => .error (.exception ("Error processing content: " ++ msg))
          | .ok md0 => .ok (mkPage url soup meta md0)
        else
          let soup2 := removeBoilerList soup
          match o.mdf (strFrag ser (chooseFragment soup2)) with
          | .error msg => .error (.exception ("Error processing content: " ++ msg))
          | .ok md0 => .ok (mkPage url soup2 meta md0)

/-- The HTTP response of `POST /analyze`. -/
inductive HttpResp where
  | ok (page : ExtractedPage)
  | err (status : Nat) (msg : String)
deriving Repr, DecidableEq

/-- The `/analyze` route (lines 112-126): a ValueError maps to 400 with the
raw message, any other exception to 500 with an `Analysis failed` prefix. -/
def analyze_link (url : String) (parts : Option UrlParts) (o : Oracle)
    (parse : String → Soup) (ser : HNode → String) : HttpResp :=
  match extract_content url parts o parse ser with
  | .ok page => .ok page
  | .error (.valueError m) => .err 400 m
  | .error (.exception m) => .err 500 ("Analysis failed: " ++ m)

/-- One value of the `/batch_analyze` response mapping. -/
inductive BatchEntry where
  | page (p : ExtractedPage)
  | failure (msg : String)
deriving Repr, DecidableEq

/-- `results[url] = content` on success, `results[url] = ... str(e) ...` on
failure. -/
def entryOf : Except PyError ExtractedPage → BatchEntry
  | .ok p => .page p
  | .error e => .failure (errMsg e)

/-- The `/batch_analyze` loop (lines 136-141): iterate the requests in
order; each pairs a URL with the outcome of its own `extract_content` call;
store page or error under the URL. -/
def batch_analyze (reqs : List (String × Except PyError ExtractedPage)) :
    PyDict BatchEntry :=
  pyFold (fun r => some (r.1, entryOf r.2)) reqs

/-! ### Concrete instances for the witnesses -/

/-- An empty attribute set. -/
def attrsNone : Attrs := ⟨none, none, none⟩

/-- A document with boilerplate and a main element. -/
def soupMain : Soup :=
  [HNode.elem "html" attrsNone
    [HNode.elem "nav" attrsNone [], HNode.elem "main" attrsNone [HNode.text "hi"]]]

/-- A parser returning `soupMain` for any input. -/
def parse0 : String → Soup := fun _ => soupMain

/-- A document with no main, article or body element. -/
def soupBare : Soup := [HNode.elem "div" attrsNone []]

/-- A parser returning `soupBare` for any input. -/
def parseBare : String → Soup := fun _ => soupBare

/-- A serializer rendering every tag the same way. -/
def ser0 : HNode → String := fun _ => "serialized"

/-- An oracle whose fetch succeeds, whose extractor yields nothing and whose
converter echoes its input. -/
def oracle0 : Oracle :=
  { fetch := .ok "<html>", traf := fun _ => .ok none, mdf := fun s => .ok s.data }

/-- A parse result with scheme and host. -/
def parts0 : Option UrlParts := some ⟨"http", "example.com"⟩

/-- The page `extract_content` produces from `oracle0` over `soupMain`. -/
def pageW : ExtractedPage :=
  mkPage "http://u" (removeBoilerList (parse0 "<html>"))
    (collectMeta (findAllMeta (parse0 "<html>"))) "serialized".data

/-- A meta tag keyed by its name attribute. -/
def tagNameFirst : Attrs := ⟨some "og:title", none, some "first"⟩

/-- A later meta tag carrying the same key through its property attribute. -/
def tagPropSecond : Attrs := ⟨none, some "og:title", some "second"⟩

/-- A failed extraction outcome. -/
def errX : Except PyError ExtractedPage := .error (.exception "x")

/-- The input string of the C3 witness. -/
def sW : List Char := 'a' :: '\n' :: '\n' :: '\n' :: ' ' :: ' ' :: 'b' :: []

/-- An oracle whose primary extractor yields content. -/
def oracle1 : Oracle :=
  { fetch := .ok "<html>", traf := fun _ => .ok (some "content"),
    mdf := fun s => .ok s.data }

/-- The page `extract_content` produces from `oracle1` over `soupMain`. -/
def pagePrime : ExtractedPage :=
  mkPage "http://u" (parse0 "<html>")
    (collectMeta (findAllMeta (parse0 "<html>"))) "content".data

/-! ### Lemmas and claims: the search adapter -/

theorem formatAll_length (items : List Item) (rs : List SearchResult)
    (h : formatAll items = some rs) : rs.length = items.length := by
  induction items generalizing rs with
  | nil => simp [formatAll] at h; simp [← h]
  | cons item rest ih =>
    simp only [formatAll] at h
    cases hf : formatItem item with
    | none => rw [hf] at h; simp at h
    | some r =>
      rw [hf] at h
      cases hr : formatAll rest with
      | none => rw [hr] at h; simp at h
      | some rs' =>
        rw [hr] at h
        simp at h
        subst h
        simp [ih rs' hr]

theorem formatAll_none_of_mem (items : List Item) (item : Item)
    (hmem : item ∈ items) (hfail : formatItem item = none) :
    formatAll items = none := by
  induction items with
  | nil => simp at hmem
  | cons hd rest ih =>
    rcases List.mem_cons.mp hmem with h | h
    · subst h; simp [formatAll, hfail]
    · simp [formatAll, ih h]

theorem getD_formatAll_length_le (items : List Item) :
    ((formatAll items).getD []).length ≤ items.length := by
  cases h : formatAll items with
  | none => simp
  | some rs => simp [formatAll_length items rs h]

/-- C1 counterexample: with `num_results = 10` and an upstream response
carrying 11 items, `perform_search` returns all 11 results, so the returned
count is neither at most 10 nor at most the requested count: the code caps
only the count it requests, never the response it receives. -/
theorem c1_counterexample :
    perform_search true upstream11 "cse" "q" 10 none none none none =
      Except.ok (List.replicate 11 emptySearchResult) ∧
    (List.replicate 11 emptySearchResult).length = 11 ∧ ¬ ((11 : Nat) ≤ 10) := by
  refine ⟨rfl, by decide, by decide⟩

/-- C1 amended: `perform_search` asks the upstream API for exactly
`min num_results 10` results, and whenever the upstream response carries at
most that many items (as the external API guarantees), the returned
sequence has at most `num_results` and at most 10 elements. -/
theorem c1_amended_cap (upstream : SearchParams → UpstreamResult)
    (cseId query : String) (numResults : Int)
    (dateRestrict language country safeSearch : Option String)
    (rs : List SearchResult)
    (hcap : (numItems (upstream (buildParams query cseId numResults
        dateRestrict language country safeSearch)) : Int) ≤
        (buildParams query cseId numResults dateRestrict language country safeSearch).num)
    (hok : perform_search true upstream cseId query numResults
        dateRestrict language country safeSearch = .ok rs) :
    (buildParams query cseId numResults dateRestrict language country safeSearch).num =
      min numResults 10 ∧
    (rs.length : Int) ≤ numResults ∧ rs.length ≤ 10 := by
  refine ⟨rfl, ?_⟩
  have hcap2 : (numItems (upstream (buildParams query cseId numResults dateRestrict
      language country safeSearch)) : Int) ≤ min numResults 10 := hcap
  have hok' : ((match upstream (buildParams query cseId numResults dateRestrict
        language country safeSearch) with
      | UpstreamResult.raises => Except.ok ([] : List SearchResult)
      | UpstreamResult.returns none => Except.ok []
      | UpstreamResult.returns (some items) => Except.ok ((formatAll items).getD [])) :
        Except String (List SearchResult)) =
      Except.ok rs := by
    simpa [perform_search] using hok
  have hlen : rs.length ≤ numItems (upstream (buildParams query cseId numResults
      dateRestrict language country safeSearch)) := by
    cases h : upstream (buildParams query cseId numResults dateRestrict language
        country safeSearch) with
    | raises => rw [h] at hok'; simp at hok'; simp [← hok', numItems]
    | returns items =>
      cases items with
      | none => rw [h] at hok'; simp at hok'; simp [← hok', numItems]
      | some l =>
        rw [h] at hok'; simp at hok'
        have h2 := getD_formatAll_length_le l
        rw [hok'] at h2
        simpa [numItems] using h2
  have hInt : (rs.length : Int) ≤ min numResults 10 :=
    le_trans (by exact_mod_cast hlen) hcap2
  exact ⟨le_trans hInt (min_le_left _ _), by exact_mod_cast le_trans hInt (min_le_right _ _)⟩

/-- Witness for the amended C1 at a concrete input. -/
theorem c1_amended_cap_witness :
    (buildParams "q" "cse" 3 none none none none).num = min 3 10 ∧
    (([emptySearchResult, emptySearchResult] : List SearchResult).length : Int) ≤ 3 ∧
    ([emptySearchResult, emptySearchResult] : List SearchResult).length ≤ 10 :=
  c1_amended_cap upstream2 "cse" "q" 3 none none none none
    [emptySearchResult, emptySearchResult] (by decide) rfl

/-- C4: with an initialized client `perform_search` never raises, whatever
the upstream does — in particular a raising upstream degrades to the empty
list — and it raises exactly when the client was never initialized. -/
theorem c4_raises_only_without_client (upstream : SearchParams → UpstreamResult)
    (cseId query : String) (numResults : Int)
    (dateRestrict language country safeSearch : Option String) :
    (∃ rs, perform_search true upstream cseId query numResults
        dateRestrict language country safeSearch = .ok rs) ∧
    perform_search true (fun _ => .raises) cseId query numResults
        dateRestrict language country safeSearch = .ok [] ∧
    perform_search false upstream cseId query numResults
        dateRestrict language country safeSearch =
      .error "Google Search API not initialized" := by
  refine ⟨?_, rfl, rfl⟩
  simp only [perform_search]
  cases upstream (buildParams query cseId numResults dateRestrict language country safeSearch) with
  | raises => exact ⟨[], by simp⟩
  | returns items => cases items with
    | none => exact ⟨[], by simp⟩
    | some l => exact ⟨(formatAll l).getD [], by simp⟩

/-- C8: an item whose pagemap maps `metatags` to an empty array makes the
first-element indexing fail; the surrounding handler catches it and the
whole call returns the empty list, discarding every already-formatted
item. -/
theorem c8_empty_metatags_discards_all (cseId query : String) (numResults : Int)
    (dateRestrict language country safeSearch : Option String)
    (items : List Item) (item : Item) (pm : PageMap)
    (hmem : item ∈ items) (hpm : item.pagemap = some pm)
    (hmt : pm.metatags = some []) :
    perform_search true (fun _ => .returns (some items)) cseId query numResults
      dateRestrict language country safeSearch = .ok [] := by
  have hfail : formatItem item = none := by
    simp [formatItem, datePublishedOf, hpm, hmt]
  have hall : formatAll items = none := formatAll_none_of_mem items item hmem hfail
  simp [perform_search, hall]

/-- Witness for C8 at a concrete input: a well-formed item followed by the
failing one yields the empty result list. -/
theorem c8_empty_metatags_discards_all_witness :
    perform_search true (fun _ => .returns (some [emptyItem, badItem])) "cse" "q" 10
      none none none none = .ok [] :=
  c8_empty_metatags_discards_all "cse" "q" 10 none none none none
    [emptyItem, badItem] badItem ⟨some []⟩ (by decide) rfl rfl

/-! ### Lemmas: the markdown cleaning passes -/

theorem mem_takeWhile_pred {p : Char → Bool} :
    ∀ {l : List Char} {c : Char}, c ∈ l.takeWhile p → p c = true := by
  intro l
  induction l with
  | nil => intro c h; simp at h
  | cons a rest ih =>
    intro c h
    rw [List.takeWhile_cons] at h
    by_cases hp : p a = true
    · rw [if_pos hp] at h
      rcases List.mem_cons.mp h with rfl | h2
      · exact hp
      · exact ih h2
    · rw [if_neg hp] at h
      simp at h

theorem takeWhile_dropWhile_nil {p : Char → Bool} (l : List Char) :
    (l.dropWhile p).takeWhile p = [] := by
  induction l with
  | nil => simp
  | cons a rest ih =>
    rw [List.dropWhile_cons]
    by_cases hp : p a = true
    · simpa [hp] using ih
    · simp [hp, List.takeWhile_cons]

theorem dropWhile_head_not {p : Char → Bool} (l : List Char) (c : Char)
    (h : (l.dropWhile p).head? = some c) : p c = false := by
  induction l with
  | nil => simp at h
  | cons a rest ih =>
    rw [List.dropWhile_cons] at h
    by_cases hp : p a = true
    · rw [if_pos hp] at h; exact ih h
    · rw [if_neg hp] at h
      simp at h
      subst h
      simpa using hp

theorem wsRun_cons (c : Char) (l : List Char) :
    wsRun (c :: l) = if isWs c then c :: wsRun l else [] := by
  simp [wsRun, List.takeWhile_cons]

theorem nlCount_cons (c : Char) (l : List Char) :
    nlCount (c :: l) = nlCount l + if c = '\n' then 1 else 0 := by
  simp [nlCount, List.count_cons]

theorem strip_rev_decomp {p : Char → Bool} (y : List Char) :
    y = (y.reverse.dropWhile p).reverse ++ (y.reverse.takeWhile p).reverse := by
  have h1 : y.reverse.takeWhile p ++ y.reverse.dropWhile p = y.reverse := by simp
  calc y = y.reverse.reverse := (List.reverse_reverse y).symm
  _ = (y.reverse.takeWhile p ++ y.reverse.dropWhile p).reverse := by rw [h1]
  _ = (y.reverse.dropWhile p).reverse ++ (y.reverse.takeWhile p).reverse := by
      rw [List.reverse_append]

theorem drop_decomp_generic (A B post : List Char) :
    ((A ++ B) ++ post).drop A.length = B ++ post := by
  rw [List.append_assoc]
  exact List.drop_left _ _

theorem lastNLlen_eq (run : List Char) :
    lastNLlen run = (run.reverse.dropWhile (fun c => c != '\n')).length := by
  have h1 : run.reverse.takeWhile (fun c => c != '\n') ++
      run.reverse.dropWhile (fun c => c != '\n') = run.reverse := by simp
  have hlen := congrArg List.length h1
  simp only [List.length_append, List.length_reverse] at hlen
  simp only [lastNLlen]
  omega

theorem drop_lastNLlen (l : List Char) (h : 1 ≤ nlCount (wsRun l)) :
    1 ≤ lastNLlen (wsRun l) ∧
    nlCount (wsRun (l.drop (lastNLlen (wsRun l)))) = 0 := by
  have hmem : '\n' ∈ wsRun l := by
    by_contra hmem
    have h0 : nlCount (wsRun l) = 0 := by
      simpa [nlCount] using List.count_eq_zero.mpr hmem
    omega
  have hDne : (List.dropWhile (fun c => c != '\n') (wsRun l).reverse) ≠ [] := by
    intro hnil
    have h1 : List.takeWhile (fun c => c != '\n') (wsRun l).reverse ++
        List.dropWhile (fun c => c != '\n') (wsRun l).reverse = (wsRun l).reverse := by simp
    rw [hnil, List.append_nil] at h1
    have hmemrev : '\n' ∈ (wsRun l).reverse := List.mem_reverse.mpr hmem
    rw [← h1] at hmemrev
    have := mem_takeWhile_pred hmemrev
    simp at this
  have hkeq := lastNLlen_eq (wsRun l)
  have hk1 : 1 ≤ lastNLlen (wsRun l) := by
    rw [hkeq]
    cases hD : List.dropWhile (fun c => c != '\n') (wsRun l).reverse with
    | nil => exact absurd hD hDne
    | cons d ds => simp
  refine ⟨hk1, ?_⟩
  have hdecomp : wsRun l = (List.dropWhile (fun c => c != '\n') (wsRun l).reverse).reverse ++
      (List.takeWhile (fun c => c != '\n') (wsRun l).reverse).reverse :=
    strip_rev_decomp _
  have hl : l = wsRun l ++ l.dropWhile isWs := by
    have h2 : l.takeWhile isWs ++ l.dropWhile isWs = l := by simp
    rw [wsRun]
    exact h2.symm
  have e1 : l.drop (lastNLlen (wsRun l)) =
      ((((List.dropWhile (fun c => c != '\n') (wsRun l).reverse).reverse ++
        (List.takeWhile (fun c => c != '\n') (wsRun l).reverse).reverse) ++ l.dropWhile isWs).drop
        ((List.dropWhile (fun c => c != '\n') (wsRun l).reverse).reverse.length)) := by
    rw [← hdecomp, ← hl, hkeq]
    simp
  rw [e1, drop_decomp_generic]
  have hTall : ∀ c ∈ (List.takeWhile (fun c => c != '\n') (wsRun l).reverse).reverse,
      isWs c = true := by
    intro c hc
    rw [List.mem_reverse] at hc
    have hcrev : c ∈ (wsRun l).reverse := ( List.takeWhile_prefix _).subset hc
    have hcrun : c ∈ wsRun l := List.mem_reverse.mp hcrev
    exact mem_takeWhile_pred hcrun
  have hsplit : wsRun ((List.takeWhile (fun c => c != '\n') (wsRun l).reverse).reverse ++
      l.dropWhile isWs) =
      (List.takeWhile (fun c => c != '\n') (wsRun l).reverse).reverse ++
      wsRun (l.dropWhile isWs) :=
    List.takeWhile_append_of_pos hTall
  rw [hsplit]
  have h2 : wsRun (l.dropWhile isWs) = [] := takeWhile_dropWhile_nil l
  rw [h2, List.append_nil]
  simp only [nlCount, List.count_reverse]
  rw [List.count_eq_zero]
  intro hmemT
  have := mem_takeWhile_pred hmemT
  simp at this

theorem isWs_nl : isWs '\n' = true := by decide

/-- Pass 1 invariant: after collapsing, no run of more than one blank line
remains, and the leading whitespace run holds at most two newlines (and no
more than it originally held). -/
theorem sub3NL_spec (l : List Char) :
    hasNL3 (sub3NL l) = false ∧
    nlCount (wsRun (sub3NL l)) ≤ min (nlCount (wsRun l)) 2 := by
  induction l using sub3NL.induct with
  | case1 => simp [sub3NL, hasNL3, wsRun, nlCount]
  | case2 c rest hc ih =>
    have hk := drop_lastNLlen (c :: rest) (by omega)
    have hdropeq : rest.drop (lastNLlen (wsRun (c :: rest)) - 1) =
        (c :: rest).drop (lastNLlen (wsRun (c :: rest))) := by
      obtain ⟨m, hm⟩ : ∃ m, lastNLlen (wsRun (c :: rest)) = m + 1 :=
        ⟨lastNLlen (wsRun (c :: rest)) - 1, by omega⟩
      rw [hm]
      simp
    have hD0 : nlCount (wsRun (sub3NL (rest.drop (lastNLlen (wsRun (c :: rest)) - 1)))) = 0 := by
      have h2 := ih.2
      have h3 : nlCount (wsRun (rest.drop (lastNLlen (wsRun (c :: rest)) - 1))) = 0 := by
        rw [hdropeq]
        exact hk.2
      omega
    have heq : sub3NL (c :: rest) =
        '\n' :: '\n' :: sub3NL (rest.drop (lastNLlen (wsRun (c :: rest)) - 1)) := by
      rw [sub3NL]
      rw [if_pos hc]
    rw [heq]
    have hwr2 : nlCount (wsRun ('\n' :: '\n' ::
        sub3NL (rest.drop (lastNLlen (wsRun (c :: rest)) - 1)))) = 2 := by
      rw [wsRun_cons, if_pos isWs_nl, nlCount_cons, wsRun_cons, if_pos isWs_nl,
        nlCount_cons, hD0]
      simp
    have hwr1 : nlCount (wsRun ('\n' ::
        sub3NL (rest.drop (lastNLlen (wsRun (c :: rest)) - 1)))) = 1 := by
      rw [wsRun_cons, if_pos isWs_nl, nlCount_cons, hD0]
      simp
    constructor
    · simp only [hasNL3, hwr2, hwr1, ih.1]
      simp
    · rw [hwr2]
      have h3 := hc.2
      omega
  | case3 c rest hc ih =>
    have heq : sub3NL (c :: rest) = c :: sub3NL rest := by
      rw [sub3NL]
      rw [if_neg hc]
    rw [heq]
    by_cases hw : isWs c = true
    · by_cases hn : c = '\n'
      · subst hn
        have hcount : nlCount (wsRun ('\n' :: rest)) = nlCount (wsRun rest) + 1 := by
          rw [wsRun_cons, if_pos isWs_nl, nlCount_cons]
          simp
        have hle2 : ¬ 3 ≤ nlCount (wsRun ('\n' :: rest)) := fun h3 => hc ⟨rfl, h3⟩
        have hrest1 : nlCount (wsRun rest) ≤ 1 := by omega
        have hcountE : nlCount (wsRun ('\n' :: sub3NL rest)) =
            nlCount (wsRun (sub3NL rest)) + 1 := by
          rw [wsRun_cons, if_pos isWs_nl, nlCount_cons]
          simp
        have hEb := ih.2
        constructor
        · simp only [hasNL3, ih.1]
          simp only [Bool.or_false]
          have : ¬ 3 ≤ nlCount (wsRun ('\n' :: sub3NL rest)) := by omega
          simp [this]
        · omega
      · have hcount : nlCount (wsRun (c :: rest)) = nlCount (wsRun rest) := by
          rw [wsRun_cons, if_pos hw, nlCount_cons, if_neg hn]
          simp
        have hcountE : nlCount (wsRun (c :: sub3NL rest)) =
            nlCount (wsRun (sub3NL rest)) := by
          rw [wsRun_cons, if_pos hw, nlCount_cons, if_neg hn]
          simp
        have hEb := ih.2
        constructor
        · simp only [hasNL3, ih.1]
          simp only [Bool.or_false]
          have hne : (c == '\n') = false := by simpa using hn
          simp [hne]
        · omega
    · have hn : c ≠ '\n' := by
        intro h
        rw [h] at hw
        exact hw isWs_nl
      have hcountE : nlCount (wsRun (c :: sub3NL rest)) = 0 := by
        rw [wsRun_cons, if_neg hw]
        simp [nlCount]
      constructor
      · simp only [hasNL3, ih.1]
        simp only [Bool.or_false]
        have hne : (c == '\n') = false := by simpa using hn
        simp [hne]
      · omega

theorem hasNL3_cons_ne (c : Char) (xs : List Char) (h : (c == '\n') = false) :
    hasNL3 (c :: xs) = hasNL3 xs := by
  simp [hasNL3, h]

theorem hasNL3_tail (c : Char) (xs : List Char) (h : hasNL3 (c :: xs) = false) :
    hasNL3 xs = false := by
  simp only [hasNL3, Bool.or_eq_false_iff] at h
  exact h.2

theorem hasNL3_of_suffix {t l : List Char} (hsuf : t <:+ l) (h : hasNL3 t = true) :
    hasNL3 l = true := by
  induction l with
  | nil =>
    rw [List.suffix_nil.mp hsuf] at h
    exact h
  | cons a rest ih =>
    rcases List.suffix_cons_iff.mp hsuf with heq | hsuf2
    · rw [← heq]; exact h
    · have := ih hsuf2
      simp [hasNL3, this]

theorem hasNL3_false_of_suffix {t l : List Char} (hsuf : t <:+ l)
    (h : hasNL3 l = false) : hasNL3 t = false := by
  cases ht : hasNL3 t with
  | false => rfl
  | true => exact absurd (hasNL3_of_suffix hsuf ht) (by simp [h])

theorem nlCount_wsRun_dropWhile_space (l : List Char) :
    nlCount (wsRun (l.dropWhile (fun d => d == ' '))) = nlCount (wsRun l) := by
  induction l with
  | nil => simp
  | cons a rest ih =>
    rw [List.dropWhile_cons]
    by_cases ha : (a == ' ') = true
    · rw [if_pos ha, ih]
      have haeq : a = ' ' := by simpa using ha
      subst haeq
      rw [wsRun_cons, if_pos (by decide : isWs ' ' = true), nlCount_cons]
      simp
    · rw [if_neg ha]

theorem subSpaces_nlCount_le (l : List Char) :
    nlCount (wsRun (subSpaces l)) ≤ nlCount (wsRun l) := by
  induction l using subSpaces.induct with
  | case1 => simp [subSpaces]
  | case2 rest ih =>
    have heq : subSpaces (' ' :: rest) =
        ' ' :: subSpaces (rest.dropWhile (fun d => d == ' ')) := by
      rw [subSpaces]
      rw [if_pos rfl]
    rw [heq]
    have hL : nlCount (wsRun (' ' :: subSpaces (rest.dropWhile (fun d => d == ' ')))) =
        nlCount (wsRun (subSpaces (rest.dropWhile (fun d => d == ' ')))) := by
      rw [wsRun_cons, if_pos (by decide : isWs ' ' = true), nlCount_cons]
      simp
    have hR : nlCount (wsRun (' ' :: rest)) = nlCount (wsRun rest) := by
      rw [wsRun_cons, if_pos (by decide : isWs ' ' = true), nlCount_cons]
      simp
    rw [hL, hR, ← nlCount_wsRun_dropWhile_space rest]
    exact ih
  | case3 c rest hc ih =>
    have heq : subSpaces (c :: rest) = c :: subSpaces rest := by
      rw [subSpaces]
      rw [if_neg hc]
    rw [heq]
    by_cases hw : isWs c = true
    · have hL : nlCount (wsRun (c :: subSpaces rest)) =
          nlCount (wsRun (subSpaces rest)) + (if c = '\n' then 1 else 0) := by
        rw [wsRun_cons, if_pos hw, nlCount_cons]
      have hR : nlCount (wsRun (c :: rest)) =
          nlCount (wsRun rest) + (if c = '\n' then 1 else 0) := by
        rw [wsRun_cons, if_pos hw, nlCount_cons]
      rw [hL, hR]
      omega
    · rw [wsRun_cons, if_neg hw]
      simp [nlCount]

theorem subSpaces_no3NL (l : List Char) (h : hasNL3 l = false) :
    hasNL3 (subSpaces l) = false := by
  induction l using subSpaces.induct with
  | case1 => simpa [subSpaces] using h
  | case2 rest ih =>
    have heq : subSpaces (' ' :: rest) =
        ' ' :: subSpaces (rest.dropWhile (fun d => d == ' ')) := by
      rw [subSpaces]
      rw [if_pos rfl]
    rw [heq]
    have hrest : hasNL3 rest = false := hasNL3_tail _ _ h
    have hdrop : hasNL3 (rest.dropWhile (fun d => d == ' ')) = false :=
      hasNL3_false_of_suffix (List.dropWhile_suffix _) hrest
    rw [hasNL3_cons_ne ' ' _ (by decide)]
    exact ih hdrop
  | case3 c rest hc ih =>
    have heq : subSpaces (c :: rest) = c :: subSpaces rest := by
      rw [subSpaces]
      rw [if_neg hc]
    rw [heq]
    have hrest : hasNL3 rest = false := hasNL3_tail _ _ h
    have hsub := ih hrest
    by_cases hn : c = '\n'
    · subst hn
      have hh : ¬ 3 ≤ nlCount (wsRun ('\n' :: rest)) := by
        by_contra h3
        simp [hasNL3, h3] at h
      have hR : nlCount (wsRun ('\n' :: rest)) = nlCount (wsRun rest) + 1 := by
        rw [wsRun_cons, if_pos isWs_nl, nlCount_cons]
        simp
      have hL : nlCount (wsRun ('\n' :: subSpaces rest)) =
          nlCount (wsRun (subSpaces rest)) + 1 := by
        rw [wsRun_cons, if_pos isWs_nl, nlCount_cons]
        simp
      have hss := subSpaces_nlCount_le rest
      simp only [hasNL3, hsub, Bool.or_false]
      have hlt : ¬ 3 ≤ nlCount (wsRun ('\n' :: subSpaces rest)) := by omega
      simp [hlt]
    · rw [hasNL3_cons_ne c _ (by simpa using hn)]
      exact hsub

theorem subSpaces_head (l : List Char) : (subSpaces l).head? = l.head? := by
  cases l with
  | nil => simp [subSpaces]
  | cons c rest =>
    rw [subSpaces]
    by_cases hc : c = ' '
    · rw [if_pos hc]
      simp [hc]
    · rw [if_neg hc]
      simp

theorem hasDS_cons_cons (x y : Char) (xs : List Char) :
    hasDS (x :: y :: xs) = (((x == ' ') && (y == ' ')) || hasDS (y :: xs)) := rfl

theorem hasDS_cons_ne (b : Char) (xs : List Char) (hb : (b == ' ') = false) :
    hasDS (b :: xs) = hasDS xs := by
  cases xs with
  | nil => simp [hasDS]
  | cons d tail => simp [hasDS_cons_cons, hb]

theorem hasDS_tail (x : Char) (xs : List Char) (h : hasDS (x :: xs) = false) :
    hasDS xs = false := by
  cases xs with
  | nil => simp [hasDS]
  | cons d tail =>
    rw [hasDS_cons_cons, Bool.or_eq_false_iff] at h
    exact h.2

theorem subSpaces_noDS (l : List Char) : hasDS (subSpaces l) = false := by
  induction l using subSpaces.induct with
  | case1 => simp [subSpaces, hasDS]
  | case2 rest ih =>
    have heq : subSpaces (' ' :: rest) =
        ' ' :: subSpaces (rest.dropWhile (fun d => d == ' ')) := by
      rw [subSpaces]
      rw [if_pos rfl]
    rw [heq]
    cases hsub : subSpaces (rest.dropWhile (fun d => d == ' ')) with
    | nil => simp [hasDS]
    | cons b tail =>
      have hdropped_head : (rest.dropWhile (fun d => d == ' ')).head? = some b := by
        have hhead := subSpaces_head (rest.dropWhile (fun d => d == ' '))
        rw [hsub] at hhead
        simpa using hhead.symm
      have hb : (b == ' ') = false := dropWhile_head_not rest b hdropped_head
      have htail : hasDS (b :: tail) = false := by
        rw [← hsub]
        exact ih
      rw [hasDS_cons_cons]
      simp [hb, htail]
  | case3 c rest hc ih =>
    have heq : subSpaces (c :: rest) = c :: subSpaces rest := by
      rw [subSpaces]
      rw [if_neg hc]
    rw [heq]
    have hcns : (c == ' ') = false := by simpa using hc
    rw [hasDS_cons_ne c _ hcns]
    exact ih

theorem isAlphanum_bne_nl {b : Char} (h : b.isAlphanum = true) : (b == '\n') = false := by
  cases hb : (b == '\n') with
  | false => rfl
  | true =>
    have hbe : b = '\n' := by simpa using hb
    rw [hbe] at h
    exact absurd h (by decide)

theorem isAlphanum_bne_space {b : Char} (h : b.isAlphanum = true) : (b == ' ') = false := by
  cases hb : (b == ' ') with
  | false => rfl
  | true =>
    have hbe : b = ' ' := by simpa using hb
    rw [hbe] at h
    exact absurd h (by decide)

theorem subHash_head (l : List Char) : (subHash l).head? = l.head? := by
  cases l with
  | nil => rfl
  | cons a rest =>
    cases rest with
    | nil => rfl
    | cons b tail =>
      simp only [subHash]
      by_cases h : a = '#' ∧ b.isAlphanum = true
      · rw [if_pos h]
        simp [h.1]
      · rw [if_neg h]
        simp

theorem subHash_nlCount_le (l : List Char) :
    nlCount (wsRun (subHash l)) ≤ nlCount (wsRun l) := by
  induction l using subHash.induct with
  | case1 => simp [subHash]
  | case2 c => simp [subHash]
  | case3 a b rest h ih =>
    have heq : subHash (a :: b :: rest) = '#' :: ' ' :: b :: subHash rest := by
      simp only [subHash]
      rw [if_pos h]
    rw [heq]
    rw [wsRun_cons, if_neg (by decide : ¬ isWs '#' = true)]
    simp [nlCount]
  | case4 a b rest h ih =>
    have heq : subHash (a :: b :: rest) = a :: subHash (b :: rest) := by
      simp only [subHash]
      rw [if_neg h]
    rw [heq]
    by_cases hw : isWs a = true
    · have hL : nlCount (wsRun (a :: subHash (b :: rest))) =
          nlCount (wsRun (subHash (b :: rest))) + (if a = '\n' then 1 else 0) := by
        rw [wsRun_cons, if_pos hw, nlCount_cons]
      have hR : nlCount (wsRun (a :: b :: rest)) =
          nlCount (wsRun (b :: rest)) + (if a = '\n' then 1 else 0) := by
        rw [wsRun_cons, if_pos hw, nlCount_cons]
      rw [hL, hR]
      omega
    · rw [wsRun_cons, if_neg hw]
      simp [nlCount]

theorem subHash_no3NL (l : List Char) (h : hasNL3 l = false) :
    hasNL3 (subHash l) = false := by
  induction l using subHash.induct with
  | case1 => simp [subHash, hasNL3]
  | case2 c =>
    simp only [subHash]
    exact h
  | case3 a b rest hcond ih =>
    have heq : subHash (a :: b :: rest) = '#' :: ' ' :: b :: subHash rest := by
      simp only [subHash]
      rw [if_pos hcond]
    rw [heq]
    have hrest : hasNL3 rest = false := hasNL3_tail _ _ (hasNL3_tail _ _ h)
    have hsub := ih hrest
    rw [hasNL3_cons_ne '#' _ (by decide), hasNL3_cons_ne ' ' _ (by decide),
      hasNL3_cons_ne b _ (isAlphanum_bne_nl hcond.2)]
    exact hsub
  | case4 a b rest hcond ih =>
    have heq : subHash (a :: b :: rest) = a :: subHash (b :: rest) := by
      simp only [subHash]
      rw [if_neg hcond]
    rw [heq]
    have hrestb : hasNL3 (b :: rest) = false := hasNL3_tail _ _ h
    have hsub := ih hrestb
    by_cases hn : a = '\n'
    · subst hn
      have hh : ¬ 3 ≤ nlCount (wsRun ('\n' :: b :: rest)) := by
        by_contra h3
        simp [hasNL3, h3] at h
      have hR : nlCount (wsRun ('\n' :: b :: rest)) = nlCount (wsRun (b :: rest)) + 1 := by
        rw [wsRun_cons, if_pos isWs_nl, nlCount_cons]
        simp
      have hL : nlCount (wsRun ('\n' :: subHash (b :: rest))) =
          nlCount (wsRun (subHash (b :: rest))) + 1 := by
        rw [wsRun_cons, if_pos isWs_nl, nlCount_cons]
        simp
      have hml := subHash_nlCount_le (b :: rest)
      simp only [hasNL3, hsub, Bool.or_false]
      have hlt : ¬ 3 ≤ nlCount (wsRun ('\n' :: subHash (b :: rest))) := by omega
      simp [hlt]
    · rw [hasNL3_cons_ne a _ (by simpa using hn)]
      exact hsub

theorem subHash_noDS (l : List Char) (h : hasDS l = false) :
    hasDS (subHash l) = false := by
  induction l using subHash.induct with
  | case1 => simp [subHash, hasDS]
  | case2 c =>
    simp only [subHash]
    exact h
  | case3 a b rest hcond ih =>
    have heq : subHash (a :: b :: rest) = '#' :: ' ' :: b :: subHash rest := by
      simp only [subHash]
      rw [if_pos hcond]
    rw [heq]
    have hbs : (b == ' ') = false := isAlphanum_bne_space hcond.2
    have hrest : hasDS rest = false := hasDS_tail _ _ (hasDS_tail _ _ h)
    have hsub := ih hrest
    rw [hasDS_cons_cons, hasDS_cons_cons, hasDS_cons_ne b _ hbs, hsub]
    simp [hbs]
  | case4 a b rest hcond ih =>
    have heq : subHash (a :: b :: rest) = a :: subHash (b :: rest) := by
      simp only [subHash]
      rw [if_neg hcond]
    rw [heq]
    have hab : ((a == ' ') && (b == ' ')) = false := by
      have h' := h
      rw [hasDS_cons_cons, Bool.or_eq_false_iff] at h'
      exact h'.1
    cases hsub2 : subHash (b :: rest) with
    | nil => simp [hasDS]
    | cons b2 tail =>
      have hb2 : b2 = b := by
        have hh := subHash_head (b :: rest)
        rw [hsub2] at hh
        simpa using hh
      have htail := ih (hasDS_tail _ _ h)
      rw [hsub2, hb2] at htail
      rw [hb2, hasDS_cons_cons]
      simp [hab, htail]

theorem takeWhile_take_prefix_of (p : Char → Bool) :
    ∀ (l : List Char) (n : Nat), ((l.take n).takeWhile p) <+: (l.takeWhile p) := by
  intro l
  induction l with
  | nil => intro n; simp
  | cons a rest ih =>
    intro n
    cases n with
    | zero => simp
    | succ m =>
      rw [List.take_succ_cons, List.takeWhile_cons, List.takeWhile_cons]
      by_cases hp : p a = true
      · rw [if_pos hp, if_pos hp]
        exact List.cons_prefix_cons.mpr ⟨rfl, ih m⟩
      · rw [if_neg hp, if_neg hp]

theorem nlCount_wsRun_take_le (l : List Char) (n : Nat) :
    nlCount (wsRun (l.take n)) ≤ nlCount (wsRun l) :=
  List.Sublist.count_le ( takeWhile_take_prefix_of isWs l n).sublist _

theorem hasNL3_take (l : List Char) :
    ∀ (n : Nat), hasNL3 l = false → hasNL3 (l.take n) = false := by
  induction l with
  | nil =>
    intro n h
    simpa using h
  | cons a rest ih =>
    intro n h
    cases n with
    | zero => simp [hasNL3]
    | succ m =>
      rw [List.take_succ_cons]
      have hrest := hasNL3_tail a rest h
      have htake := ih m hrest
      simp only [hasNL3, htake, Bool.or_false]
      by_cases hn : a = '\n'
      · subst hn
        have hh : ¬ 3 ≤ nlCount (wsRun ('\n' :: rest)) := by
          by_contra h3
          simp [hasNL3, h3] at h
        have hmono : nlCount (wsRun ('\n' :: rest.take m)) ≤
            nlCount (wsRun ('\n' :: rest)) := by
          have h2 := nlCount_wsRun_take_le ('\n' :: rest) (m + 1)
          simpa [List.take_succ_cons] using h2
        have hlt : ¬ 3 ≤ nlCount (wsRun ('\n' :: rest.take m)) := by omega
        simp [hlt]
      · simp [show (a == '\n') = false by simpa using hn]

theorem hasDS_take (l : List Char) :
    ∀ (n : Nat), hasDS l = false → hasDS (l.take n) = false := by
  induction l with
  | nil =>
    intro n h
    simpa using h
  | cons a rest ih =>
    intro n h
    cases n with
    | zero => simp [hasDS]
    | succ m =>
      rw [List.take_succ_cons]
      cases rest with
      | nil => simp [hasDS]
      | cons b tail =>
        cases m with
        | zero => simp [hasDS]
        | succ m2 =>
          rw [List.take_succ_cons, hasDS_cons_cons]
          have h1 : ((a == ' ') && (b == ' ')) = false := by
            rw [hasDS_cons_cons, Bool.or_eq_false_iff] at h
            exact h.1
          have h2 : hasDS (b :: tail.take m2) = false := by
            have h3 := ih (m2 + 1) (hasDS_tail _ _ h)
            simpa [List.take_succ_cons] using h3
          simp [h1, h2]

theorem hasDS_of_suffix {t l : List Char} (hsuf : t <:+ l) (h : hasDS t = true) :
    hasDS l = true := by
  induction l with
  | nil =>
    rw [List.suffix_nil.mp hsuf] at h
    exact h
  | cons a rest ih =>
    rcases List.suffix_cons_iff.mp hsuf with heq | hsuf2
    · rw [← heq]; exact h
    · have hr := ih hsuf2
      cases rest with
      | nil => simp [hasDS] at hr
      | cons b tail =>
        rw [hasDS_cons_cons]
        simp [hr]

theorem hasDS_false_of_suffix {t l : List Char} (hsuf : t <:+ l)
    (h : hasDS l = false) : hasDS t = false := by
  cases ht : hasDS t with
  | false => rfl
  | true => exact absurd (hasDS_of_suffix hsuf ht) (by simp [h])

theorem take_decomp_generic (A B : List Char) :
    (A ++ B).take A.length = A := List.take_left _ _

theorem pyStrip_eq_take_drop (l : List Char) :
    ∃ n, pyStrip l = (l.dropWhile isWs).take n := by
  refine ⟨((l.dropWhile isWs).reverse.dropWhile isWs).reverse.length, ?_⟩
  set y := l.dropWhile isWs with hy
  have hdec : y = (y.reverse.dropWhile isWs).reverse ++ (y.reverse.takeWhile isWs).reverse :=
    strip_rev_decomp y
  calc pyStrip l = (y.reverse.dropWhile isWs).reverse := rfl
  _ = ((y.reverse.dropWhile isWs).reverse ++ (y.reverse.takeWhile isWs).reverse).take
        ((y.reverse.dropWhile isWs).reverse.length) := (take_decomp_generic _ _).symm
  _ = y.take ((y.reverse.dropWhile isWs).reverse.length) := by rw [← hdec]

theorem pyStrip_no3NL (l : List Char) (h : hasNL3 l = false) :
    hasNL3 (pyStrip l) = false := by
  obtain ⟨n, hn⟩ := pyStrip_eq_take_drop l
  rw [hn]
  exact hasNL3_take _ n (hasNL3_false_of_suffix (List.dropWhile_suffix _) h)

theorem pyStrip_noDS (l : List Char) (h : hasDS l = false) :
    hasDS (pyStrip l) = false := by
  obtain ⟨n, hn⟩ := pyStrip_eq_take_drop l
  rw [hn]
  exact hasDS_take _ n (hasDS_false_of_suffix (List.dropWhile_suffix _) h)

/-- Every output of `_clean_markdown` is free of runs of more than one blank
line. -/
theorem clean_markdown_no3NL (l : List Char) : hasNL3 (clean_markdown l) = false :=
  pyStrip_no3NL _ (subHash_no3NL _ (subSpaces_no3NL _ (sub3NL_spec l).1))

/-- Every output of `_clean_markdown` is free of adjacent space
characters. -/
theorem clean_markdown_noDS (l : List Char) : hasDS (clean_markdown l) = false :=
  pyStrip_noDS _ (subHash_noDS _ (subSpaces_noDS _))

/-! ### Lemmas: Python dicts -/

theorem hasKey_cons (p : String × β) (rest : PyDict β) (k : String) :
    hasKey (p :: rest) k = ((p.1 == k) || hasKey rest k) := by
  simp [hasKey]

theorem find_map_pos (m : PyDict β) (k : String) (v : β) (h : hasKey m k = true) :
    (m.map (fun p => if p.1 == k then (k, v) else p)).find? (fun p => p.1 == k) =
      some (k, v) := by
  induction m with
  | nil => simp [hasKey] at h
  | cons p rest ih =>
    rw [List.map_cons]
    by_cases hp : (p.1 == k) = true
    · rw [if_pos hp]
      rw [List.find?_cons_of_pos _ (by simp)]
    · rw [if_neg hp]
      rw [List.find?_cons_of_neg _ (by simpa using hp)]
      apply ih
      rw [hasKey_cons] at h
      simpa [hp] using h

theorem find_map_ne (m : PyDict β) (k k' : String) (v : β) (hne : k' ≠ k) :
    (m.map (fun p => if p.1 == k then (k, v) else p)).find? (fun p => p.1 == k') =
      m.find? (fun p => p.1 == k') := by
  induction m with
  | nil => simp
  | cons p rest ih =>
    rw [List.map_cons]
    by_cases hp : (p.1 == k) = true
    · have hpk : p.1 = k := by simpa using hp
      rw [if_pos hp]
      rw [List.find?_cons_of_neg _ (by simp; exact Ne.symm hne)]
      rw [List.find?_cons_of_neg _ (by simp [hpk]; exact Ne.symm hne)]
      exact ih
    · rw [if_neg hp]
      by_cases hq : (p.1 == k') = true
      · rw [List.find?_cons_of_pos _ (by simpa using hq),
          List.find?_cons_of_pos _ (by simpa using hq)]
      · rw [List.find?_cons_of_neg _ (by simpa using hq),
          List.find?_cons_of_neg _ (by simpa using hq)]
        exact ih

theorem hasKey_false_find_none (m : PyDict β) (k : String) (h : hasKey m k = false) :
    m.find? (fun p => p.1 == k) = none := by
  induction m with
  | nil => simp
  | cons p rest ih =>
    rw [hasKey_cons, Bool.or_eq_false_iff] at h
    rw [List.find?_cons_of_neg _ (by simp [h.1])]
    exact ih h.2

theorem pyGet_pyInsert_same (m : PyDict β) (k : String) (v : β) :
    pyGet (pyInsert m k v) k = some v := by
  unfold pyInsert
  by_cases hm : hasKey m k = true
  · rw [if_pos hm]
    unfold pyGet
    rw [find_map_pos m k v hm]
    rfl
  · rw [if_neg hm]
    unfold pyGet
    rw [List.find?_append, hasKey_false_find_none m k (by simpa using hm)]
    simp

theorem pyGet_pyInsert_ne (m : PyDict β) (k : String) (v : β) (k' : String)
    (hne : k' ≠ k) : pyGet (pyInsert m k v) k' = pyGet m k' := by
  unfold pyInsert
  by_cases hm : hasKey m k = true
  · rw [if_pos hm]
    unfold pyGet
    rw [find_map_ne m k k' v hne]
  · rw [if_neg hm]
    unfold pyGet
    rw [List.find?_append]
    have h1 : ((k, v).1 == k') = false := by simp; exact Ne.symm hne
    simp [h1]

theorem foldl_dictStep_pyGet (L : List (String × β)) :
    ∀ (m : PyDict β) (k : String),
    pyGet (L.foldl dictStep m) k =
      (match lastContent k L with
       | some w => some w
       | none => pyGet m k) := by
  induction L with
  | nil => intro m k; simp [lastContent]
  | cons p rest ih =>
    intro m k
    obtain ⟨q, v⟩ := p
    rw [List.foldl_cons]
    rw [ih]
    cases hlast : lastContent k rest with
    | some w => simp [lastContent, hlast]
    | none =>
      simp only [lastContent, hlast]
      by_cases hqk : q = k
      · subst hqk
        simp [dictStep, pyGet_pyInsert_same]
      · have h1 : (q == k) = false := by simp [hqk]
        rw [dictStep, pyGet_pyInsert_ne m q v k (Ne.symm hqk)]
        simp [h1]

theorem pyFold_eq_foldl_filterMap (f : α → Option (String × β)) (l : List α) :
    ∀ (m : PyDict β),
    l.foldl (fun m x => match f x with
      | some p => pyInsert m p.1 p.2
      | none => m) m =
    (l.filterMap f).foldl dictStep m := by
  induction l with
  | nil => intro m; simp
  | cons x rest ih =>
    intro m
    rw [List.foldl_cons, List.filterMap_cons]
    cases hfx : f x with
    | none =>
      simp only [hfx]
      exact ih m
    | some p =>
      simp only [hfx]
      rw [List.foldl_cons]
      exact ih (dictStep m p)

theorem pyGet_pyFold (f : α → Option (String × β)) (l : List α) (k : String) :
    pyGet (pyFold f l) k = lastContent k (l.filterMap f) := by
  have h1 : pyFold f l = (l.filterMap f).foldl dictStep [] :=
    pyFold_eq_foldl_filterMap f l []
  rw [h1, foldl_dictStep_pyGet]
  cases hlast : lastContent k (l.filterMap f) with
  | some w => rfl
  | none => simp [pyGet]

theorem lastContent_none_of_no_key (k : String) (L : List (String × β))
    (h : ∀ p ∈ L, p.1 ≠ k) : lastContent k L = none := by
  induction L with
  | nil => rfl
  | cons p rest ih =>
    obtain ⟨q, v⟩ := p
    have hq : q ≠ k := h (q, v) (by simp)
    have hrest := ih (fun p hp => h p (by simp [hp]))
    simp [lastContent, hrest, hq]

theorem lastContent_append (k : String) (A B : List (String × β)) :
    lastContent k (A ++ B) =
      (match lastContent k B with
       | some w => some w
       | none => lastContent k A) := by
  induction A with
  | nil =>
    cases hB : lastContent k B with
    | some w => simp [hB]
    | none => simp [hB, lastContent]
  | cons p rest ih =>
    obtain ⟨q, v⟩ := p
    rw [List.cons_append]
    cases hB : lastContent k B with
    | some w =>
      rw [hB] at ih
      simp [lastContent, ih, hB]
    | none =>
      rw [hB] at ih
      simp only [lastContent, ih, hB]

theorem lastContent_of_nodup (L : List (String × β)) (h : (L.map Prod.fst).Nodup)
    (p : String × β) (hp : p ∈ L) : lastContent p.1 L = some p.2 := by
  induction L with
  | nil => simp at hp
  | cons q rest ih =>
    rw [List.map_cons, List.nodup_cons] at h
    rcases List.mem_cons.mp hp with rfl | hmem
    · have hnone : lastContent p.1 rest = none := by
        apply lastContent_none_of_no_key
        intro r hr hrk
        exact h.1 (by rw [← hrk]; exact List.mem_map.mpr ⟨r, hr, rfl⟩)
      simp [lastContent, hnone]
    · have := ih h.2 hmem
      simp [lastContent, this]

theorem hasKey_map_repl (m : PyDict β) (k k' : String) (v : β) :
    hasKey (m.map (fun p => if p.1 == k then (k, v) else p)) k' = hasKey m k' := by
  induction m with
  | nil => simp [hasKey]
  | cons p rest ih =>
    rw [List.map_cons, hasKey_cons, hasKey_cons, ih]
    by_cases hp1 : (p.1 == k) = true
    · have hpk : p.1 = k := by simpa using hp1
      rw [if_pos hp1]
      simp [hpk]
    · rw [if_neg hp1]

theorem hasKey_pyInsert (m : PyDict β) (k k' : String) (v : β) :
    hasKey (pyInsert m k v) k' = (hasKey m k' || (k == k')) := by
  unfold pyInsert
  by_cases hm : hasKey m k = true
  · rw [if_pos hm]
    rw [hasKey_map_repl]
    by_cases hkk : k = k'
    · subst hkk
      simp [hm]
    · have h1 : (k == k') = false := by simp [hkk]
      simp [h1]
  · rw [if_neg hm]
    unfold hasKey
    rw [List.any_append]
    simp

theorem hasKey_foldl_dictStep (L : List (String × β)) :
    ∀ (m : PyDict β) (k : String),
    hasKey (L.foldl dictStep m) k = (hasKey m k || L.any (fun p => p.1 == k)) := by
  induction L with
  | nil => intro m k; simp
  | cons p rest ih =>
    intro m k
    obtain ⟨q, v⟩ := p
    rw [List.foldl_cons, ih]
    simp only [dictStep]
    rw [hasKey_pyInsert, List.any_cons]
    simp [Bool.or_assoc]

theorem length_pyInsert (m : PyDict β) (k : String) (v : β) :
    (pyInsert m k v).length = if hasKey m k = true then m.length else m.length + 1 := by
  unfold pyInsert
  by_cases hm : hasKey m k = true
  · simp [hm]
  · simp [hm]

theorem length_foldl_dictStep_le (L : List (String × β)) :
    ∀ (m : PyDict β), (L.foldl dictStep m).length ≤ m.length + L.length := by
  induction L with
  | nil => intro m; simp
  | cons p rest ih =>
    intro m
    obtain ⟨q, v⟩ := p
    rw [List.foldl_cons]
    have h1 := ih (dictStep m (q, v))
    have h2 : (dictStep m (q, v)).length ≤ m.length + 1 := by
      simp only [dictStep]
      rw [length_pyInsert]
      by_cases hm : hasKey m q = true
      · simp [hm]
      · simp [hm]
    simp only [List.length_cons]
    omega

theorem length_foldl_dictStep_eq (L : List (String × β)) :
    ∀ (m : PyDict β), (∀ p ∈ L, hasKey m p.1 = false) → (L.map Prod.fst).Nodup →
    (L.foldl dictStep m).length = m.length + L.length := by
  induction L with
  | nil => intro m _ _; simp
  | cons p rest ih =>
    intro m hfresh hnd
    obtain ⟨q, v⟩ := p
    rw [List.map_cons, List.nodup_cons] at hnd
    rw [List.foldl_cons]
    have hq : hasKey m q = false := hfresh (q, v) (by simp)
    have hlen1 : (dictStep m (q, v)).length = m.length + 1 := by
      simp only [dictStep]
      rw [length_pyInsert]
      simp [hq]
    have hfresh2 : ∀ r ∈ rest, hasKey (dictStep m (q, v)) r.1 = false := by
      intro r hr
      simp only [dictStep]
      rw [hasKey_pyInsert]
      have h1 : hasKey m r.1 = false := hfresh r (by simp [hr])
      have h2 : (q == r.1) = false := by
        simp only [beq_eq_false_iff_ne, ne_eq]
        intro hqr
        exact hnd.1 (by rw [hqr]; exact List.mem_map.mpr ⟨r, hr, rfl⟩)
      simp [h1, h2]
    rw [ih (dictStep m (q, v)) hfresh2 hnd.2, hlen1]
    simp only [List.length_cons]
    omega

theorem keys_pyInsert_nodup (m : PyDict β) (k : String) (v : β)
    (h : (m.map Prod.fst).Nodup) : ((pyInsert m k v).map Prod.fst).Nodup := by
  unfold pyInsert
  by_cases hm : hasKey m k = true
  · rw [if_pos hm]
    have hsame : (m.map (fun p => if p.1 == k then (k, v) else p)).map Prod.fst =
        m.map Prod.fst := by
      rw [List.map_map]
      apply List.map_congr_left
      intro p hp
      by_cases hp1 : (p.1 == k) = true
      · have hpk : p.1 = k := by simpa using hp1
        simp [Function.comp, hp1, hpk]
      · simp [Function.comp, hp1]
    rw [hsame]
    exact h
  · rw [if_neg hm]
    rw [List.map_append]
    have hk : k ∉ m.map Prod.fst := by
      intro hmem
      obtain ⟨p, hp, hpk⟩ := List.mem_map.mp hmem
      have : hasKey m k = true := by
        unfold hasKey
        exact List.any_eq_true.mpr ⟨p, hp, by simp [hpk]⟩
      exact hm this
    rw [List.nodup_append]
    refine ⟨h, by simp, ?_⟩
    intro a ha hb
    simp at hb
    rw [hb] at ha
    exact hk ha

theorem keys_foldl_dictStep_nodup (L : List (String × β)) :
    ∀ (m : PyDict β), (m.map Prod.fst).Nodup →
    ((L.foldl dictStep m).map Prod.fst).Nodup := by
  induction L with
  | nil => intro m hm; exact hm
  | cons p rest ih =>
    intro m hm
    rw [List.foldl_cons]
    exact ih _ (keys_pyInsert_nodup m p.1 p.2 hm)

/-! ### Lemmas and claims: the content extractor -/

theorem removeBoiler_no_boiler (d : Soup) :
    ∀ e ∈ allElems (removeBoilerList d), ∀ t, tagOf e = some t → t ∉ boilerTags := by
  induction d using removeBoilerList.induct with
  | case1 =>
    intro e he
    simp [removeBoilerList, allElems] at he
  | case2 s rest ih =>
    intro e he t ht
    simp only [removeBoilerList, allElems] at he
    exact ih e he t ht
  | case3 t a ch rest hcond ih =>
    intro e he t' ht'
    simp only [removeBoilerList, if_pos hcond] at he
    exact ih e he t' ht'
  | case4 t a ch rest hcond ihch ihrest =>
    intro e he t' ht'
    simp only [removeBoilerList, if_neg hcond, allElems] at he
    rcases List.mem_cons.mp he with rfl | hmem
    · simp [tagOf] at ht'
      rw [← ht']
      exact hcond
    · rcases List.mem_append.mp hmem with h1 | h2
      · exact ihch e h1 t' ht'
      · exact ihrest e h2 t' ht'

theorem findTag_tag (name : String) (d : Soup) :
    ∀ n, findTag name d = some n → tagOf n = some name := by
  induction d using findTag.induct name with
  | case1 =>
    intro n h
    simp [findTag] at h
  | case2 s rest ih =>
    intro n h
    simp only [findTag] at h
    exact ih n h
  | case3 a ch rest =>
    intro n h
    simp [findTag] at h
    rw [← h]
    simp [tagOf]
  | case4 t a ch rest hne n0 hx ih =>
    intro n h
    simp only [findTag, if_neg hne] at h
    rw [hx] at h
    simp at h
    rw [← h]
    exact ih n0 hx
  | case5 t a ch rest hne hx ihch ihrest =>
    intro n h
    simp only [findTag, if_neg hne] at h
    rw [hx] at h
    exact ihrest n h

theorem containsTag_iff_findTag (name : String) (d : Soup) :
    containsTag name d = true ↔ (findTag name d).isSome = true := by
  induction d using containsTag.induct name with
  | case1 => simp [containsTag, findTag]
  | case2 s rest ih =>
    simp only [containsTag, findTag]
    exact ih
  | case3 t a ch rest ihch ihrest =>
    simp only [containsTag, findTag]
    by_cases ht : t = name
    · simp [ht]
    · have htb : (t == name) = false := by simp [ht]
      rw [if_neg ht]
      cases hf : findTag name ch with
      | some n =>
        have hc : containsTag name ch = true := ihch.mpr (by simp [hf])
        simp [htb, hc]
      | none =>
        have hc : containsTag name ch = false := by
          cases hcc : containsTag name ch with
          | false => rfl
          | true =>
            have h2 := ihch.mp hcc
            rw [hf] at h2
            simp at h2
        simp [htb, hc]
        cases hcr : containsTag name rest with
        | true => exact (ihrest.mp hcr).symm
        | false =>
          cases hfr : (findTag name rest).isSome with
          | false => rfl
          | true =>
            rw [ihrest.mpr hfr] at hcr
            exact absurd hcr (by decide)

theorem chooseFragment_priority (soup : Soup) :
    chooseFragment soup =
      (if (findTag "main" soup).isSome then findTag "main" soup
       else if (findTag "article" soup).isSome then findTag "article" soup
       else findTag "body" soup) := by
  unfold chooseFragment
  cases h1 : findTag "main" soup with
  | some n => simp
  | none =>
    cases h2 : findTag "article" soup with
    | some n => simp
    | none => simp

theorem chooseFragment_main (soup : Soup) (h : containsTag "main" soup = true) :
    ∃ m, chooseFragment soup = some m ∧ chooseFragment soup = findTag "main" soup ∧
      tagOf m = some "main" := by
  have hs := (containsTag_iff_findTag "main" soup).mp h
  obtain ⟨m, hm⟩ := Option.isSome_iff_exists.mp hs
  refine ⟨m, ?_, ?_, findTag_tag "main" soup m hm⟩
  · unfold chooseFragment
    rw [hm]
  · unfold chooseFragment
    rw [hm]

theorem extract_content_fallback (url : String) (parts : Option UrlParts) (o : Oracle)
    (parse : String → Soup) (ser : HNode → String)
    (hvalid : is_valid_url parts = true)
    (body : String) (hfetch : o.fetch = .ok body)
    (trafRes : Option String) (htraf : o.traf body = .ok trafRes)
    (hempty : trafRes.getD "" = "") :
    extract_content url parts o parse ser =
      (match o.mdf (strFrag ser (chooseFragment (removeBoilerList (parse body)))) with
       | .error msg => .error (.exception ("Error processing content: " ++ msg))
       | .ok md0 => .ok (mkPage url (removeBoilerList (parse body))
           (collectMeta (findAllMeta (parse body))) md0)) := by
  simp [extract_content, hvalid, hfetch, htraf, hempty]

theorem extract_ok_mkPage (url : String) (parts : Option UrlParts) (o : Oracle)
    (parse : String → Soup) (ser : HNode → String) (page : ExtractedPage)
    (hok : extract_content url parts o parse ser = .ok page) :
    ∃ soupT meta md0, page = mkPage url soupT meta md0 := by
  unfold extract_content at hok
  by_cases hv : is_valid_url parts = false
  · rw [if_pos hv] at hok
    exact absurd hok (by simp)
  · rw [if_neg hv] at hok
    cases hf : o.fetch with
    | error m =>
      simp only [hf] at hok
      simp at hok
    | ok body =>
      simp only [hf] at hok
      cases ht : o.traf body with
      | error m =>
        simp only [ht] at hok
        simp at hok
      | ok tr =>
        simp only [ht] at hok
        by_cases he : (tr.getD "" == "") = false
        · rw [if_pos he] at hok
          cases hm : o.mdf (tr.getD "") with
          | error m =>
            simp only [hm] at hok
            simp at hok
          | ok md0 =>
            simp only [hm] at hok
            simp at hok
            exact ⟨_, _, _, hok.symm⟩
        · rw [if_neg he] at hok
          cases hm : o.mdf (strFrag ser (chooseFragment (removeBoilerList (parse body)))) with
          | error m =>
            simp only [hm] at hok
            simp at hok
          | ok md0 =>
            simp only [hm] at hok
            simp at hok
            exact ⟨_, _, _, hok.symm⟩

/-- C2: when the primary extractor yields nothing, the fallback removes
every script, style, nav, footer, header and aside element, then chooses
the first present of main, article, body; whenever the (boilerplate-free)
document contains a main element, the first main element is the chosen
fragment; and the produced page is built from exactly that fragment. -/
theorem c2_fallback_selection (url : String) (parts : Option UrlParts) (o : Oracle)
    (parse : String → Soup) (ser : HNode → String)
    (hvalid : is_valid_url parts = true)
    (body : String) (hfetch : o.fetch = .ok body)
    (trafRes : Option String) (htraf : o.traf body = .ok trafRes)
    (hempty : trafRes.getD "" = "") :
    (∀ e ∈ allElems (removeBoilerList (parse body)), ∀ t, tagOf e = some t →
      t ∉ boilerTags) ∧
    chooseFragment (removeBoilerList (parse body)) =
      (if (findTag "main" (removeBoilerList (parse body))).isSome then
        findTag "main" (removeBoilerList (parse body))
       else if (findTag "article" (removeBoilerList (parse body))).isSome then
        findTag "article" (removeBoilerList (parse body))
       else findTag "body" (removeBoilerList (parse body))) ∧
    (containsTag "main" (removeBoilerList (parse body)) = true →
      ∃ m, chooseFragment (removeBoilerList (parse body)) = some m ∧
        chooseFragment (removeBoilerList (parse body)) =
          findTag "main" (removeBoilerList (parse body)) ∧
        tagOf m = some "main") ∧
    (∀ page, extract_content url parts o parse ser = .ok page →
      ∃ md0, o.mdf (strFrag ser (chooseFragment (removeBoilerList (parse body)))) =
          .ok md0 ∧
        page = mkPage url (removeBoilerList (parse body))
          (collectMeta (findAllMeta (parse body))) md0) := by
  refine ⟨removeBoiler_no_boiler (parse body), chooseFragment_priority _,
    chooseFragment_main _, ?_⟩
  intro page hok
  rw [extract_content_fallback url parts o parse ser hvalid body hfetch trafRes htraf
    hempty] at hok
  cases hm : o.mdf (strFrag ser (chooseFragment (removeBoilerList (parse body)))) with
  | error m =>
    rw [hm] at hok
    simp at hok
  | ok md0 =>
    rw [hm] at hok
    simp at hok
    exact ⟨md0, rfl, hok.symm⟩

/-- C3: `_clean_markdown` output never holds a run of more than one blank
line nor two adjacent spaces, and every successful extraction derives its
word count, character count and preview from the cleaned markdown string. -/
theorem c3_markdown_normalized (url : String) (parts : Option UrlParts) (o : Oracle)
    (parse : String → Soup) (ser : HNode → String) (s : List Char)
    (page : ExtractedPage)
    (hok : extract_content url parts o parse ser = .ok page) :
    hasNL3 (clean_markdown s) = false ∧ hasDS (clean_markdown s) = false ∧
    hasNL3 page.markdown_content = false ∧ hasDS page.markdown_content = false ∧
    page.word_count = countWords page.markdown_content ∧
    page.approximate_chars = page.markdown_content.length ∧
    page.first_500_chars = previewOf page.markdown_content := by
  obtain ⟨soupT, meta, md0, hpage⟩ := extract_ok_mkPage url parts o parse ser page hok
  subst hpage
  exact ⟨clean_markdown_no3NL s, clean_markdown_noDS s, clean_markdown_no3NL md0,
    clean_markdown_noDS md0, rfl, rfl, rfl⟩

/-- C5: an invalid URL fails with the ValueError class before any fetch is
attempted (the result does not depend on the oracles), mapped to 400; for a
valid URL every failure surfaces as the generic exception class, mapped to
500, so the caller can always distinguish the two. -/
theorem c5_error_classes (url : String) (parts : Option UrlParts) (o : Oracle)
    (parse : String → Soup) (ser : HNode → String) :
    (is_valid_url parts = false →
      (∀ o' : Oracle, extract_content url parts o' parse ser =
        .error (.valueError "Invalid URL provided")) ∧
      analyze_link url parts o parse ser = .err 400 "Invalid URL provided") ∧
    (is_valid_url parts = true →
      (∃ page, extract_content url parts o parse ser = .ok page ∧
        analyze_link url parts o parse ser = .ok page) ∨
      (∃ m, extract_content url parts o parse ser = .error (.exception m) ∧
        analyze_link url parts o parse ser = .err 500 ("Analysis failed: " ++ m))) := by
  constructor
  · intro h
    constructor
    · intro o'
      simp [extract_content, h]
    · simp [analyze_link, extract_content, h]
  · intro h
    cases hf : o.fetch with
    | error m =>
      right
      exact ⟨"Failed to fetch content: " ++ m,
        by simp [extract_content, h, hf],
        by simp [analyze_link, extract_content, h, hf]⟩
    | ok body =>
      cases ht : o.traf body with
      | error m =>
        right
        exact ⟨"Error processing content: " ++ m,
          by simp [extract_content, h, hf, ht],
          by simp [analyze_link, extract_content, h, hf, ht]⟩
      | ok tr =>
        by_cases he : (tr.getD "" == "") = false
        · cases hm : o.mdf (tr.getD "") with
          | error m =>
            right
            exact ⟨"Error processing content: " ++ m,
              by simp [extract_content, h, hf, ht, he, hm],
              by simp [analyze_link, extract_content, h, hf, ht, he, hm]⟩
          | ok md0 =>
            left
            exact ⟨mkPage url (parse body) (collectMeta (findAllMeta (parse body))) md0,
              by simp [extract_content, h, hf, ht, he, hm],
              by simp [analyze_link, extract_content, h, hf, ht, he, hm]⟩
        · cases hm : o.mdf (strFrag ser (chooseFragment (removeBoilerList (parse body)))) with
          | error m =>
            right
            exact ⟨"Error processing content: " ++ m,
              by simp [extract_content, h, hf, ht, he, hm],
              by simp [analyze_link, extract_content, h, hf, ht, he, hm]⟩
          | ok md0 =>
            left
            exact ⟨mkPage url (removeBoilerList (parse body))
                (collectMeta (findAllMeta (parse body))) md0,
              by simp [extract_content, h, hf, ht, he, hm],
              by simp [analyze_link, extract_content, h, hf, ht, he, hm]⟩

/-- C9: when the primary extractor yields nothing and the boilerplate-free
document holds no main, article or body element, the fragment passed to
conversion is the literal string rendered from Python `None`, and the call
succeeds with the cleaned conversion of that string. -/
theorem c9_none_fragment (url : String) (parts : Option UrlParts) (o : Oracle)
    (parse : String → Soup) (ser : HNode → String)
    (hvalid : is_valid_url parts = true)
    (body : String) (hfetch : o.fetch = .ok body)
    (trafRes : Option String) (htraf : o.traf body = .ok trafRes)
    (hempty : trafRes.getD "" = "")
    (hfrag : chooseFragment (removeBoilerList (parse body)) = none)
    (md0 : List Char) (hmdf : o.mdf "None" = .ok md0) :
    strFrag ser (chooseFragment (removeBoilerList (parse body))) = "None" ∧
    extract_content url parts o parse ser =
      .ok (mkPage url (removeBoilerList (parse body))
        (collectMeta (findAllMeta (parse body))) md0) ∧
    (mkPage url (removeBoilerList (parse body))
      (collectMeta (findAllMeta (parse body))) md0).markdown_content =
      clean_markdown md0 := by
  have hstr : strFrag ser (chooseFragment (removeBoilerList (parse body))) = "None" := by
    rw [hfrag]
    rfl
  refine ⟨hstr, ?_, rfl⟩
  rw [extract_content_fallback url parts o parse ser hvalid body hfetch trafRes htraf
    hempty]
  rw [hstr, hmdf]

theorem filterMap_some_fn (g : α → String × β) (l : List α) :
    l.filterMap (fun x => some (g x)) = l.map g := by
  induction l with
  | nil => rfl
  | cons x rest ih =>
    rw [List.filterMap_cons]
    simp [ih]

theorem batch_analyze_eq (rs : List (String × Except PyError ExtractedPage)) :
    batch_analyze rs = (rs.map (fun r => (r.1, entryOf r.2))).foldl dictStep [] := by
  have h1 := pyFold_eq_foldl_filterMap
    (fun r : String × Except PyError ExtractedPage => some (r.1, entryOf r.2)) rs []
  rw [filterMap_some_fn] at h1
  exact h1

/-- C6: the meta mapping sends each key (the tag's name, falling back to its
property) to the content of the last tag in document order carrying that key
with truthy name and content; in particular, whenever a later tag carries
the same key with a nonempty content, its content determines the value. -/
theorem c6_meta_last_wins (tags : List Attrs) (k : String) :
    pyGet (collectMeta tags) k =
      lastContent k (tags.filterMap (fun a =>
        if tagKey a ≠ "" ∧ tagContent a ≠ "" then some (tagKey a, tagContent a)
        else none)) ∧
    (∀ (front post : List Attrs) (t2 : Attrs),
      tags = front ++ t2 :: post →
      tagKey t2 = k → k ≠ "" → tagContent t2 ≠ "" →
      (∀ a ∈ post, tagKey a = k → tagContent a = "") →
      pyGet (collectMeta tags) k = some (tagContent t2)) := by
  constructor
  · exact pyGet_pyFold _ tags k
  · intro front post t2 htags hkey hkne hcontent hpost
    subst htags
    unfold collectMeta
    rw [pyGet_pyFold]
    rw [List.filterMap_append, List.filterMap_cons]
    rw [if_pos ⟨by rw [hkey]; exact hkne, hcontent⟩]
    rw [lastContent_append]
    have hpostnone : lastContent k (post.filterMap (fun a =>
        if tagKey a ≠ "" ∧ tagContent a ≠ "" then some (tagKey a, tagContent a)
        else none)) = none := by
      apply lastContent_none_of_no_key
      intro p hp
      obtain ⟨a, ha, hfa⟩ := List.mem_filterMap.mp hp
      by_cases hcond : tagKey a ≠ "" ∧ tagContent a ≠ ""
      · rw [if_pos hcond] at hfa
        have hpp : (tagKey a, tagContent a) = p := by simpa using hfa
        rw [← hpp]
        intro heq
        exact hcond.2 (hpost a ha heq)
      · rw [if_neg hcond] at hfa
        simp at hfa
    simp [lastContent, hpostnone, hkey]

/-- C7: with distinct URLs, the batch endpoint returns one entry per input
URL and no others; every URL's entry is exactly its own call's page or error
description, regardless of how the other calls fared. -/
theorem c7_batch_isolated (urls : List String)
    (outs : List (Except PyError ExtractedPage))
    (hlen : outs.length = urls.length) (hnd : urls.Nodup) :
    (batch_analyze (urls.zip outs)).length = urls.length ∧
    (∀ r ∈ urls.zip outs, pyGet (batch_analyze (urls.zip outs)) r.1 =
      some (entryOf r.2)) ∧
    (∀ u, u ∉ urls → pyGet (batch_analyze (urls.zip outs)) u = none) := by
  have hkeys : (((urls.zip outs).map (fun r => (r.1, entryOf r.2))).map Prod.fst) =
      urls := by
    rw [List.map_map]
    have hcomp : (Prod.fst ∘ fun r : String × Except PyError ExtractedPage =>
        (r.1, entryOf r.2)) = Prod.fst := by
      funext r
      rfl
    rw [hcomp]
    exact List.map_fst_zip urls outs (by omega)
  refine ⟨?_, ?_, ?_⟩
  · rw [batch_analyze_eq]
    rw [length_foldl_dictStep_eq _ [] (by intro p hp; simp [hasKey]) (by rw [hkeys]; exact hnd)]
    simp only [List.length_nil, List.length_map, Nat.zero_add]
    rw [List.length_zip]
    omega
  · intro r hr
    rw [batch_analyze_eq, foldl_dictStep_pyGet]
    have hmem : (r.1, entryOf r.2) ∈ (urls.zip outs).map (fun r => (r.1, entryOf r.2)) :=
      List.mem_map.mpr ⟨r, hr, rfl⟩
    have hlc := lastContent_of_nodup _ (by rw [hkeys]; exact hnd) (r.1, entryOf r.2) hmem
    rw [hlc]
  · intro u hu
    rw [batch_analyze_eq, foldl_dictStep_pyGet]
    have hnone : lastContent u ((urls.zip outs).map (fun r => (r.1, entryOf r.2))) =
        none := by
      apply lastContent_none_of_no_key
      intro p hp
      obtain ⟨r, hr, hrp⟩ := List.mem_map.mp hp
      have h1 : r.1 ∈ urls := (List.of_mem_zip hr).1
      have hp1 : p.1 = r.1 := by rw [← hrp]
      rw [hp1]
      intro heq
      rw [heq] at h1
      exact hu h1
    rw [hnone]
    simp [pyGet]

/-- C10: with duplicate URLs in the batch, the response still has one entry
per distinct URL (strictly fewer than the number of requests), and each
URL's entry holds the outcome of the last request made for it. -/
theorem c10_batch_duplicates (A B : List (String × Except PyError ExtractedPage))
    (p : String × Except PyError ExtractedPage) (hdup : p.1 ∈ A.map Prod.fst) :
    ((batch_analyze (A ++ p :: B)).map Prod.fst).Nodup ∧
    (batch_analyze (A ++ p :: B)).length < (A ++ p :: B).length ∧
    (∀ u, pyGet (batch_analyze (A ++ p :: B)) u =
      lastContent u ((A ++ p :: B).map (fun r => (r.1, entryOf r.2)))) := by
  refine ⟨?_, ?_, ?_⟩
  · rw [batch_analyze_eq]
    exact keys_foldl_dictStep_nodup _ [] (by simp)
  · rw [batch_analyze_eq, List.map_append, List.map_cons, List.foldl_append,
      List.foldl_cons]
    have h1 : ((A.map (fun r => (r.1, entryOf r.2))).foldl dictStep
        ([] : PyDict BatchEntry)).length ≤ A.length := by
      have := length_foldl_dictStep_le (A.map (fun r => (r.1, entryOf r.2)))
        ([] : PyDict BatchEntry)
      simpa using this
    have hkey : hasKey ((A.map (fun r => (r.1, entryOf r.2))).foldl dictStep
        ([] : PyDict BatchEntry)) p.1 = true := by
      rw [hasKey_foldl_dictStep]
      obtain ⟨a, ha, hap⟩ := List.mem_map.mp hdup
      have hmem : (a.1, entryOf a.2) ∈ A.map (fun r => (r.1, entryOf r.2)) :=
        List.mem_map.mpr ⟨a, ha, rfl⟩
      have hany : (A.map (fun r => (r.1, entryOf r.2))).any
          (fun q => q.1 == p.1) = true :=
        List.any_eq_true.mpr ⟨(a.1, entryOf a.2), hmem, by simp [hap]⟩
      simp [hany]
    have h2 : (dictStep ((A.map (fun r => (r.1, entryOf r.2))).foldl dictStep
        ([] : PyDict BatchEntry)) (p.1, entryOf p.2)).length =
        ((A.map (fun r => (r.1, entryOf r.2))).foldl dictStep
        ([] : PyDict BatchEntry)).length := by
      simp only [dictStep]
      rw [length_pyInsert]
      simp [hkey]
    have h3 := length_foldl_dictStep_le (B.map (fun r => (r.1, entryOf r.2)))
      (dictStep ((A.map (fun r => (r.1, entryOf r.2))).foldl dictStep
        ([] : PyDict BatchEntry)) (p.1, entryOf p.2))
    simp only [List.length_append, List.length_cons, List.length_map] at h3 ⊢
    omega
  · intro u
    rw [batch_analyze_eq, foldl_dictStep_pyGet]
    cases hlast : lastContent u ((A ++ p :: B).map (fun r => (r.1, entryOf r.2))) with
    | some w => rfl
    | none => simp [pyGet]

/-! ### Witnesses for the extractor claims -/

/-- Witness for C2 at a concrete boilerplate-bearing document with a main
element. -/
theorem c2_fallback_selection_witness :
    ∃ m, chooseFragment (removeBoilerList (parse0 "<html>")) = some m ∧
      chooseFragment (removeBoilerList (parse0 "<html>")) =
        findTag "main" (removeBoilerList (parse0 "<html>")) ∧
      tagOf m = some "main" :=
  (c2_fallback_selection "http://u" parts0 oracle0 parse0 ser0 rfl "<html>" rfl none
    rfl rfl).2.2.1
    (by simp [parse0, soupMain, removeBoilerList, containsTag, boilerTags, attrsNone])

/-- Witness for C3 at a concrete string with a triple blank line and double
spaces, and a concrete successful extraction. -/
theorem c3_markdown_normalized_witness :
    hasNL3 (clean_markdown sW) = false ∧ hasDS (clean_markdown sW) = false ∧
    pagePrime.word_count = countWords pagePrime.markdown_content :=
  ⟨(c3_markdown_normalized "http://u" parts0 oracle1 parse0 ser0 sW pagePrime rfl).1,
   (c3_markdown_normalized "http://u" parts0 oracle1 parse0 ser0 sW pagePrime rfl).2.1,
   (c3_markdown_normalized "http://u" parts0 oracle1 parse0 ser0 sW pagePrime
     rfl).2.2.2.2.1⟩

/-- Witness for C5 at a URL whose parse yields no components. -/
theorem c5_error_classes_witness :
    extract_content "u" none oracle0 parse0 ser0 =
      .error (.valueError "Invalid URL provided") ∧
    analyze_link "u" none oracle0 parse0 ser0 = .err 400 "Invalid URL provided" :=
  ⟨((c5_error_classes "u" none oracle0 parse0 ser0).1 rfl).1 oracle0,
   ((c5_error_classes "u" none oracle0 parse0 ser0).1 rfl).2⟩

/-- Witness for C6: a name-keyed tag followed by a property-keyed tag with
the same key; the later content wins. -/
theorem c6_meta_last_wins_witness :
    pyGet (collectMeta [tagNameFirst, tagPropSecond]) "og:title" = some "second" :=
  (c6_meta_last_wins [tagNameFirst, tagPropSecond] "og:title").2
    [tagNameFirst] [] tagPropSecond rfl rfl (by decide) (by decide)
    (by intro a ha; exact absurd ha (List.not_mem_nil a))

/-- Witness for C7: two distinct URLs, the first failing; both entries are
present and independent. -/
theorem c7_batch_isolated_witness :
    pyGet (batch_analyze (["a", "b"].zip [errX, Except.ok pageW])) "a" =
      some (entryOf errX) ∧
    (batch_analyze (["a", "b"].zip [errX, Except.ok pageW])).length = 2 :=
  ⟨(c7_batch_isolated ["a", "b"] [errX, Except.ok pageW] rfl (by decide)).2.1
      ("a", errX) (List.mem_cons_self _ _),
   (c7_batch_isolated ["a", "b"] [errX, Except.ok pageW] rfl (by decide)).1⟩

/-- Witness for C9: a document with no main, article or body element. -/
theorem c9_none_fragment_witness :
    extract_content "http://u" parts0 oracle0 parseBare ser0 =
      .ok (mkPage "http://u" (removeBoilerList (parseBare "<html>"))
        (collectMeta (findAllMeta (parseBare "<html>"))) "None".data) :=
  (c9_none_fragment "http://u" parts0 oracle0 parseBare ser0 rfl "<html>" rfl none rfl
    rfl (by simp [parseBare, soupBare, removeBoilerList, chooseFragment, findTag,
      boilerTags])
    "None".data rfl).2.1

/-- Witness for C10: the same URL twice; the mapping holds one entry, fewer
than the two requests, with the last outcome. -/
theorem c10_batch_duplicates_witness :
    (batch_analyze ([("a", errX)] ++ ("a", Except.ok pageW) :: [])).length <
      ([("a", errX)] ++ ("a", Except.ok pageW) :: []).length ∧
    pyGet (batch_analyze ([("a", errX)] ++ ("a", Except.ok pageW) :: [])) "a" =
      lastContent "a" (([("a", errX)] ++ ("a", Except.ok pageW) :: []).map
        (fun r : String × Except PyError ExtractedPage => (r.1, entryOf r.2))) :=
  ⟨(c10_batch_duplicates [("a", errX)] [] ("a", Except.ok pageW) (by decide)).2.1,
   (c10_batch_duplicates [("a", errX)] [] ("a", Except.ok pageW) (by decide)).2.2 "a"⟩
